import Mathlib

/-!
Verification of the featureform/embeddinghub core against its
natural-language specification.

The repository snapshot under inspection provides the client test suite
(`serving_test.py`, `serving_cases.py`, `resources_test.py`) and
`enums.py`, but the implementation modules `featureform/resources.py`,
`featureform/serving.py` and `featureform/local_utils.py` are not part of
the snapshot.  The components those modules implement — the Materializer,
the TrainingSetAssembler and the ResourceState graph — are therefore
modelled here from the specification's own words (sections 4.1-4.3 of the
spec), and each such definition is marked `Modelled from the spec:` in its
doc comment.  `ScalarType` is translated directly from
`src/client/src/featureform/enums.py`, which is present.

Timestamps are modelled as `Nat` (the spec's "minimum representable
instant" is `0`); entities are `String`s; values are polymorphic, with a
small concrete value type `Val` used for the test scenarios.
-/

namespace FF

open List

/-- Concrete value type used to replay the repository's test scenarios:
the event streams in `serving_cases.py` mix integers, strings and
booleans. -/
inductive Val where
  | vint (n : Int)
  | vstr (s : String)
  | vbool (b : Bool)
deriving DecidableEq, Repr

/-! ### Materializer (spec section 4.2) -/

/-- Modelled from the spec: the per-entity history is a map keyed by
timestamp; `insertSorted` is insertion/overwrite at key `t`, keeping the
entry list sorted by timestamp with no duplicate keys. -/
def insertSorted {α : Type} : List (Nat × α) → Nat → α → List (Nat × α)
  | [], t, v => [(t, v)]
  | (t0, v0) :: rest, t, v =>
    if t < t0 then (t, v) :: (t0, v0) :: rest
    else if t = t0 then (t, v) :: rest
    else (t0, v0) :: insertSorted rest t v

/-- Maximum timestamp present in a per-entity entry list (`none` when the
entity has no accepted entries yet). -/
def maxTS {α : Type} : List (Nat × α) → Option Nat
  | [] => none
  | (t, _) :: rest =>
    some (match maxTS rest with
          | none => t
          | some m => max t m)

/-- Modelled from the spec: a row with timestamp `t` and value `v` is
accepted (inserted/overwritten at key `t`) iff `t >= max(all previously
accepted timestamps for this entity)`; strictly earlier rows are
dropped. -/
def acceptTS {α : Type} (es : List (Nat × α)) (t : Nat) (v : α) : List (Nat × α) :=
  match maxTS es with
  | none => insertSorted es t v
  | some m => if m ≤ t then insertSorted es t v else es

/-- A materialized history: per entity, an ordered-by-timestamp list of
`(timestamp, value)` entries (spec section 3). -/
abbrev History (α : Type) := List (String × List (Nat × α))

/-- Apply `f` to the entry list of entity `e`, inserting the entity (with
`f []`) when it is not yet present. -/
def updateEntity {α : Type} : History α → String → (List (Nat × α) → List (Nat × α)) → History α
  | [], e, f => [(e, f [])]
  | (e0, es) :: rest, e, f =>
    if e0 = e then (e0, f es) :: rest
    else (e0, es) :: updateEntity rest e f

/-- Modelled from the spec: `build` with `has_timestamp = true` processes
rows in stream order, applying the `>=`-acceptance rule per entity. -/
def buildTS {α : Type} (rows : List (String × Nat × α)) : History α :=
  rows.foldl (fun h r => updateEntity h r.1 (fun es => acceptTS es r.2.1 r.2.2)) []

/-- Modelled from the spec: `build` with `has_timestamp = false` accepts
every row unconditionally, overwriting the prior value for its entity;
the single resulting value is recorded as a static entry at the minimum
representable instant (here `0`). -/
def buildNoTS {α : Type} (rows : List (String × α)) : History α :=
  rows.foldl (fun h r => updateEntity h r.1 (fun _ => [(0, r.2)])) []

/-- Entry list of entity `e` in history `h`, `none` when unknown. -/
def lookupEntity {α : Type} : History α → String → Option (List (Nat × α))
  | [], _ => none
  | (e0, es) :: rest, e => if e0 = e then some es else lookupEntity rest e

/-- Entry list of entity `e`, empty when the entity is unknown. -/
def entriesOf {α : Type} (h : History α) (e : String) : List (Nat × α) :=
  (lookupEntity h e).getD []

/-- Modelled from the spec: value at the greatest timestamp `<= at` in a
sorted entry list, `none` when there is no such entry. -/
def queryEntries {α : Type} (es : List (Nat × α)) (t : Nat) : Option α :=
  (es.filter (fun p => p.1 ≤ t)).getLast?.map Prod.snd

/-- Modelled from the spec: `query(history, entity, at)` returns the value
at the greatest timestamp `<= at` for that entity; `absent` (`none`) if
the entity is unknown or its earliest retained timestamp exceeds `at`. -/
def query {α : Type} (h : History α) (e : String) (t : Nat) : Option α :=
  queryEntries (entriesOf h e) t

example : query (buildNoTS [("a", (1 : Int)), ("b", 2), ("c", 3), ("a", 4)]) "a" 100 = some 4 := by
  decide

example : query (buildTS [("a", 10, (1 : Int)), ("a", 1, 4)]) "a" 10 = some 1 := by
  decide

example : query (buildTS [("a", 10, (1 : Int)), ("a", 1, 4)]) "a" 5 = none := by
  decide

example : query (buildTS [("a", 3, (2 : Int)), ("a", 3, 9)]) "a" 3 = some 9 := by
  decide

/-! ### TrainingSetAssembler (spec section 4.3) -/

/-- Modelled from the spec: one step of deduplicating the label stream by
the Materializer rule — a label row is accepted iff its timestamp is `>=`
the maximum timestamp of previously accepted rows for its entity; an
accepted row replaces any previously accepted row of the same entity and
exact timestamp (later-in-stream wins on ties). -/
def stepLabel {α : Type} (acc : List (String × Nat × α)) (row : String × Nat × α) :
    List (String × Nat × α) :=
  match maxTS ((acc.filter (fun r => r.1 = row.1)).map (fun r => r.2)) with
  | none => acc ++ [row]
  | some m =>
    if m ≤ row.2.1 then
      (acc.filter (fun r => ¬(r.1 = row.1 ∧ r.2.1 = row.2.1))) ++ [row]
    else acc

/-- Modelled from the spec: the label rows surviving step 1 of `assemble`
(each surviving label row contributes one output example). -/
def survivingLabels {α : Type} (rows : List (String × Nat × α)) : List (String × Nat × α) :=
  rows.foldl stepLabel []

/-- Modelled from the spec: `assemble` over a timestamped label stream and
a list of feature histories — one output row per surviving label row, the
feature values (in feature-spec order, each looked up as of the label's
timestamp, `none` for a missing lookup) followed by the label value. -/
def assemble {α β : Type} (labelRows : List (String × Nat × α)) (featureSpecs : List (History β)) :
    List (List (Option β) × α) :=
  (survivingLabels labelRows).map
    (fun r => (featureSpecs.map (fun h => query h r.1 r.2.1), r.2.2))

/-! ### ResourceState (spec section 4.1) -/

/-- The resource kinds ranked by `sorted_list` (spec section 4.1), plus
Schedule. -/
inductive ResourceKind where
  | user | provider | source | entity | feature | label | trainingSet | schedule
deriving DecidableEq, Repr

/-- The fixed per-kind rank used by `sorted_list`:
User(0) < Provider(1) < Source(2) < Entity(3) < Feature(4) < Label(5) < TrainingSet(6). -/
def kindRank : ResourceKind → Nat
  | .user => 0
  | .provider => 1
  | .source => 2
  | .entity => 3
  | .feature => 4
  | .label => 5
  | .trainingSet => 6
  | .schedule => 7

/-- Modelled from the spec: a resource identified by `(kind, name,
variant)`, with its kind-specific immutable defining fields abstracted as
a comparable blob `defn` and its accumulating reference lists as
`refs`. -/
structure Resource where
  kind : ResourceKind
  name : String
  variant : String
  defn : String
  refs : List String
deriving DecidableEq, Repr

/-- The identity key of a resource. -/
def rkey (r : Resource) : ResourceKind × String × String := (r.kind, r.name, r.variant)

/-- Modelled from the spec: the resource graph, kept in insertion
order. -/
structure ResourceState where
  resources : List Resource
deriving DecidableEq, Repr

/-- `ResourceRedefinedError`, naming the conflicting kind/name/variant. -/
inductive ResourceError where
  | redefined (kind : ResourceKind) (name : String) (variant : String)
deriving DecidableEq, Repr

/-- First resource in the state with the given identity key. -/
def lookupRes (s : ResourceState) (k : ResourceKind × String × String) : Option Resource :=
  s.resources.find? (fun r => rkey r = k)

/-- Union of two reference lists, keeping the left list's order and
appending new entries. -/
def mergeRefs (a b : List String) : List String :=
  a ++ b.filter (fun x => ¬ x ∈ a)

/-- Merge the reference lists of `r` into the stored resource with the
same identity key, in place. -/
def mergeAt (rs : List Resource) (r : Resource) : List Resource :=
  rs.map (fun q => if rkey q = rkey r then { q with refs := mergeRefs q.refs r.refs } else q)

/-- Modelled from the spec: `add(resource)` inserts under the identity
key when absent; merges reference lists when the existing entry has equal
immutable defining fields; fails with `ResourceRedefinedError` (naming
the conflicting kind/name/variant) when any defining field differs. -/
def add (s : ResourceState) (r : Resource) : Except ResourceError ResourceState :=
  match lookupRes s (rkey r) with
  | none => .ok ⟨s.resources ++ [r]⟩
  | some q =>
    if q.defn = r.defn then .ok ⟨mergeAt s.resources r⟩
    else .error (.redefined r.kind r.name r.variant)

/-- Fold `add` over a list of resources starting from a given state,
stopping at the first error. -/
def addAllFrom (s : ResourceState) : List Resource → Except ResourceError ResourceState
  | [] => .ok s
  | r :: rest =>
    match add s r with
    | .ok s' => addAllFrom s' rest
    | .error e => .error e

/-- Fold `add` over a list of resources starting from the empty state. -/
def addAll (rs : List Resource) : Except ResourceError ResourceState :=
  addAllFrom ⟨[]⟩ rs

/-- The seven non-Schedule kinds in rank order. -/
def nonScheduleKinds : List ResourceKind :=
  [.user, .provider, .source, .entity, .feature, .label, .trainingSet]

/-- The by-name ordering used for the Schedule tail of `sorted_list`. -/
def nameLe (a b : Resource) : Prop := a.name ≤ b.name

instance : DecidableRel nameLe :=
  fun a b => inferInstanceAs (Decidable (a.name ≤ b.name))

instance : IsTotal Resource nameLe :=
  ⟨fun a b => le_total a.name b.name⟩

instance : IsTrans Resource nameLe :=
  ⟨fun _ _ _ h1 h2 => le_trans h1 h2⟩

/-- Modelled from the spec: `sorted_list()` returns the non-Schedule
resources ordered primarily by `kindRank`, ties within a rank in
first-insertion order, followed by the Schedule resources ordered by name
(lexicographic ascending). -/
def sortedList (s : ResourceState) : List Resource :=
  (nonScheduleKinds.flatMap (fun k => s.resources.filter (fun r => r.kind = k)))
    ++ (s.resources.filter (fun r => r.kind = .schedule)).insertionSort nameLe

/-- The ordering relation `sorted_list` establishes over its output: all
non-Schedule resources precede all Schedule resources, non-Schedule
resources are ranked by `kindRank`, and Schedule resources are ordered by
name. -/
def sortedOrd (r1 r2 : Resource) : Prop :=
  (r1.kind ≠ .schedule ∧ r2.kind = .schedule) ∨
  (r1.kind ≠ .schedule ∧ r2.kind ≠ .schedule ∧ kindRank r1.kind ≤ kindRank r2.kind) ∨
  (r1.kind = .schedule ∧ r2.kind = .schedule ∧ nameLe r1 r2)

/-- First-occurrence deduplication of a key sequence: the identity keys a
successful sequence of `add` calls leaves in the state, in first-insertion
order. -/
def firstKeys (ks : List (ResourceKind × String × String)) :
    List (ResourceKind × String × String) :=
  ks.foldl (fun acc k => if k ∈ acc then acc else acc ++ [k]) []

/-! ### Materializer construction validation (spec sections 4.2, 6) -/

/-- `ColumnNotFoundError`, naming the missing column. -/
inductive MatError where
  | columnNotFound (col : String)
deriving DecidableEq, Repr

/-- Modelled from the spec: the caller's column-name-to-role mapping is
validated against the stream's schema; a required column (entity, value,
or timestamp when requested) absent from the schema is a fatal
`ColumnNotFoundError` naming the missing column. -/
def validateColumns (schema : List String) (entityCol valueCol : String)
    (tsCol : Option String) : Except MatError Unit :=
  if ¬ entityCol ∈ schema then .error (.columnNotFound entityCol)
  else if ¬ valueCol ∈ schema then .error (.columnNotFound valueCol)
  else
    match tsCol with
    | none => .ok ()
    | some t => if ¬ t ∈ schema then .error (.columnNotFound t) else .ok ()

/-- Modelled from the spec: Materializer construction — validate the
column mapping, then build the history; never proceeds past a missing
column. -/
def materialize {α : Type} (schema : List String) (entityCol valueCol : String)
    (tsCol : Option String) (rows : List (String × Nat × α)) : Except MatError (History α) :=
  match validateColumns schema entityCol valueCol tsCol with
  | .error e => .error e
  | .ok _ => .ok (buildTS rows)

/-! ### ScalarType (from `src/client/src/featureform/enums.py`) -/

/-- `ScalarType`, translated from `enums.py`: the scalar types supported
by Featureform, including `NIL` (the empty string, "no specified
type"). -/
inductive ScalarType where
  | nil | int | int32 | int64 | float32 | float64 | string | bool | datetime
deriving DecidableEq, Repr

/-- The string value of each `ScalarType` member, from `enums.py`. -/
def ScalarType.value : ScalarType → String
  | .nil => ""
  | .int => "int"
  | .int32 => "int32"
  | .int64 => "int64"
  | .float32 => "float32"
  | .float64 => "float64"
  | .string => "string"
  | .bool => "bool"
  | .datetime => "datetime"

/-- All members of `ScalarType`, in declaration order. -/
def ScalarType.all : List ScalarType :=
  [.nil, .int, .int32, .int64, .float32, .float64, .string, .bool, .datetime]

/-- `ScalarType.get_values()` from `enums.py`. -/
def ScalarType.get_values : List String :=
  ScalarType.all.map ScalarType.value

/-- `ScalarType.has_value(value)` from `enums.py`: true iff `value` is
the string value of some member. -/
def ScalarType.has_value (v : String) : Bool :=
  ScalarType.get_values.contains v

/-- Modelled from the spec: `Feature.__init__` / `Label.__init__`
(`resources.py`, absent from the snapshot) validate `value_type` against
the supported `ScalarType` values, raising `ValueError` otherwise;
reconstructed from `resources_test.py` (`test_valid_feature_column_types`,
`test_valid_label_column_types`) and `enums.py`. -/
def featureInitOk (value_type : String) : Bool :=
  ScalarType.has_value value_type

/-- Modelled from the spec: same validation for `Label` construction. -/
def labelInitOk (value_type : String) : Bool :=
  ScalarType.has_value value_type

/-! ### Helper lemmas on histories -/

theorem lookupEntity_updateEntity_self {α : Type} (h : History α) (e : String)
    (f : List (Nat × α) → List (Nat × α)) :
    lookupEntity (updateEntity h e f) e = some (f (entriesOf h e)) := by
  induction h with
  | nil => simp [updateEntity, lookupEntity, entriesOf]
  | cons p rest ih =>
    obtain ⟨e0, es⟩ := p
    by_cases he : e0 = e
    · subst he
      simp [updateEntity, lookupEntity, entriesOf]
    · simp [updateEntity, lookupEntity, entriesOf, he] at ih ⊢
      exact ih

theorem lookupEntity_updateEntity_ne {α : Type} (h : History α) (e e' : String)
    (f : List (Nat × α) → List (Nat × α)) (hne : e' ≠ e) :
    lookupEntity (updateEntity h e f) e' = lookupEntity h e' := by
  induction h with
  | nil => simp [updateEntity, lookupEntity, Ne.symm hne]
  | cons p rest ih =>
    obtain ⟨e0, es⟩ := p
    by_cases he : e0 = e
    · subst he
      simp [updateEntity, lookupEntity, Ne.symm hne]
    · by_cases he' : e0 = e'
      · subst he'
        simp [updateEntity, lookupEntity, he]
      · simp [updateEntity, lookupEntity, he, he'] at ih ⊢
        exact ih

theorem entriesOf_updateEntity_self {α : Type} (h : History α) (e : String)
    (f : List (Nat × α) → List (Nat × α)) :
    entriesOf (updateEntity h e f) e = f (entriesOf h e) := by
  simp [entriesOf, lookupEntity_updateEntity_self]

theorem entriesOf_updateEntity_ne {α : Type} (h : History α) (e e' : String)
    (f : List (Nat × α) → List (Nat × α)) (hne : e' ≠ e) :
    entriesOf (updateEntity h e f) e' = entriesOf h e' := by
  simp [entriesOf, lookupEntity_updateEntity_ne h e e' f hne]

theorem buildNoTS_append_one {α : Type} (rows : List (String × α)) (r : String × α) :
    buildNoTS (rows ++ [r]) = updateEntity (buildNoTS rows) r.1 (fun _ => [(0, r.2)]) := by
  simp [buildNoTS, List.foldl_append]

theorem buildTS_append_one {α : Type} (rows : List (String × Nat × α)) (r : String × Nat × α) :
    buildTS (rows ++ [r]) = updateEntity (buildTS rows) r.1 (fun es => acceptTS es r.2.1 r.2.2) := by
  simp [buildTS, List.foldl_append]

theorem queryEntries_static {α : Type} (v : α) (t : Nat) :
    queryEntries [(0, v)] t = some v := by
  simp [queryEntries, List.filter]

/-- The core of the no-timestamp collapse: querying a `buildNoTS` history
returns the value of the last row for that entity in stream order, at
every query time. -/
theorem query_buildNoTS {α : Type} (rows : List (String × α)) (e : String) (t : Nat) :
    query (buildNoTS rows) e t = ((rows.filter (fun r => r.1 = e)).getLast?).map Prod.snd := by
  induction rows using List.reverseRecOn with
  | nil => simp [buildNoTS, query, entriesOf, lookupEntity, queryEntries]
  | append_singleton rows r ih =>
    obtain ⟨e0, v0⟩ := r
    by_cases he : e0 = e
    · subst he
      simp only [query, buildNoTS_append_one, entriesOf_updateEntity_self]
      simp [queryEntries_static, List.filter_append, List.filter]
    · have h1 : query (buildNoTS (rows ++ [(e0, v0)])) e t = query (buildNoTS rows) e t := by
        simp only [query, buildNoTS_append_one]
        rw [entriesOf_updateEntity_ne _ _ _ _ (Ne.symm he)]
      rw [h1, ih]
      simp [List.filter_append, List.filter, he]

theorem mem_insertSorted {α : Type} (es : List (Nat × α)) (t : Nat) (v : α) (p : Nat × α)
    (hp : p ∈ insertSorted es t v) : p ∈ es ∨ p = (t, v) := by
  induction es with
  | nil =>
    simp [insertSorted] at hp
    right; exact hp
  | cons q rest ih =>
    obtain ⟨t0, v0⟩ := q
    by_cases h1 : t < t0
    · simp only [insertSorted, if_pos h1, List.mem_cons] at hp
      rcases hp with h | h | h
      · right; exact h
      · left; simp [h]
      · left; simp [h]
    · by_cases h2 : t = t0
      · simp only [insertSorted, if_neg h1, if_pos h2, List.mem_cons] at hp
        rcases hp with h | h
        · right; exact h
        · left; simp [h]
      · simp only [insertSorted, if_neg h1, if_neg h2, List.mem_cons] at hp
        rcases hp with h | h
        · left; simp [h]
        · rcases ih h with h' | h'
          · left; simp [h']
          · right; exact h'

theorem pairwise_insertSorted {α : Type} (es : List (Nat × α)) (t : Nat) (v : α)
    (h : es.Pairwise (fun p q => p.1 < q.1)) :
    (insertSorted es t v).Pairwise (fun p q => p.1 < q.1) := by
  induction es with
  | nil => simp [insertSorted]
  | cons q rest ih =>
    obtain ⟨t0, v0⟩ := q
    rw [List.pairwise_cons] at h
    obtain ⟨hhd, htl⟩ := h
    by_cases h1 : t < t0
    · simp only [insertSorted, if_pos h1]
      rw [List.pairwise_cons]
      constructor
      · intro b hb
        rcases List.mem_cons.mp hb with h' | h'
        · simp [h', h1]
        · exact lt_trans h1 (hhd b h')
      · rw [List.pairwise_cons]
        exact ⟨hhd, htl⟩
    · by_cases h2 : t = t0
      · simp only [insertSorted, if_neg h1, if_pos h2]
        rw [List.pairwise_cons]
        refine ⟨fun b hb => ?_, htl⟩
        rw [h2]
        exact hhd b hb
      · simp only [insertSorted, if_neg h1, if_neg h2]
        rw [List.pairwise_cons]
        refine ⟨fun b hb => ?_, ih htl⟩
        rcases mem_insertSorted rest t v b hb with h' | h'
        · exact hhd b h'
        · have h3 : t0 < t := by omega
          simp [h', h3]

theorem pairwise_acceptTS {α : Type} (es : List (Nat × α)) (t : Nat) (v : α)
    (h : es.Pairwise (fun p q => p.1 < q.1)) :
    (acceptTS es t v).Pairwise (fun p q => p.1 < q.1) := by
  unfold acceptTS
  rcases hmax : maxTS es with _ | m
  · exact pairwise_insertSorted es t v h
  · by_cases hle : m ≤ t
    · simp only [if_pos hle]
      exact pairwise_insertSorted es t v h
    · simp only [if_neg hle]
      exact h

/-- Invariant of `buildTS`: every entity's entry list is strictly sorted
by timestamp (hence ordered with no duplicate timestamps). -/
theorem buildTS_entries_pairwise {α : Type} (rows : List (String × Nat × α)) (e : String) :
    (entriesOf (buildTS rows) e).Pairwise (fun p q => p.1 < q.1) := by
  induction rows using List.reverseRecOn with
  | nil => simp [buildTS, entriesOf, lookupEntity]
  | append_singleton rows r ih =>
    rw [buildTS_append_one]
    by_cases he : e = r.1
    · subst he
      rw [entriesOf_updateEntity_self]
      exact pairwise_acceptTS _ _ _ ih
    · rw [entriesOf_updateEntity_ne _ _ _ _ he]
      exact ih

theorem maxTS_eq_none_iff {α : Type} (es : List (Nat × α)) : maxTS es = none ↔ es = [] := by
  cases es with
  | nil => simp [maxTS]
  | cons p rest => simp [maxTS]

theorem maxTS_cons {α : Type} (p : Nat × α) (es : List (Nat × α)) :
    maxTS (p :: es) =
      some (match maxTS es with
            | none => p.1
            | some m => max p.1 m) := rfl

theorem fst_le_of_maxTS {α : Type} (es : List (Nat × α)) (m : Nat)
    (hm : maxTS es = some m) (p : Nat × α) (hp : p ∈ es) : p.1 ≤ m := by
  induction es generalizing m with
  | nil => cases hp
  | cons q rest ih =>
    obtain ⟨t0, v0⟩ := q
    rcases List.mem_cons.mp hp with h | h
    · rcases hrest : maxTS rest with _ | m'
      · simp [maxTS, hrest] at hm
        simp [h, hm]
      · simp [maxTS, hrest] at hm
        subst hm
        simp [h]
    · rcases hrest : maxTS rest with _ | m'
      · rw [maxTS_eq_none_iff] at hrest
        subst hrest
        cases h
      · simp [maxTS, hrest] at hm
        subst hm
        have := ih m' hrest h
        omega

theorem exists_dropLast_append {α : Type} (es : List α) :
    ∃ zs, es.dropLast ++ zs = es := by
  induction es with
  | nil => exact ⟨[], rfl⟩
  | cons p rest ih =>
    cases rest with
    | nil => exact ⟨[p], rfl⟩
    | cons q rest' =>
      obtain ⟨zs, hzs⟩ := ih
      exact ⟨zs, by simpa [List.dropLast] using congrArg (p :: ·) hzs⟩

/-- When the incoming timestamp is at least the entity's running maximum,
insertion never touches the history below its final entry. -/
theorem insertSorted_ge_max {α : Type} (es : List (Nat × α)) (t : Nat) (v : α) (m : Nat)
    (hs : es.Pairwise (fun p q => p.1 < q.1)) (hm : maxTS es = some m) (hle : m ≤ t) :
    ∃ zs, es.dropLast ++ zs = insertSorted es t v := by
  induction es generalizing m with
  | nil => exact ⟨insertSorted [] t v, rfl⟩
  | cons q rest ih =>
    obtain ⟨t0, v0⟩ := q
    cases rest with
    | nil =>
      simp [maxTS] at hm
      subst hm
      have h1 : ¬ t < t0 := by omega
      by_cases h2 : t = t0
      · exact ⟨[(t, v)], by simp [insertSorted, h1, h2]⟩
      · exact ⟨[(t0, v0), (t, v)], by simp [insertSorted, h1, h2]⟩
    | cons q1 rest' =>
      obtain ⟨t1, v1⟩ := q1
      rcases hrest : maxTS ((t1, v1) :: rest') with _ | m'
      · rw [maxTS_eq_none_iff] at hrest
        cases hrest
      · have ht1 : t1 ≤ m' := fst_le_of_maxTS _ m' hrest (t1, v1) (by simp)
        have ht01 : t0 < t1 := by
          rw [List.pairwise_cons] at hs
          exact hs.1 (t1, v1) (by simp)
        have hm2 : max t0 m' = m := by
          rw [maxTS_cons, hrest] at hm
          exact Option.some.inj hm
        have h1 : ¬ t < t0 := by omega
        have h2 : ¬ t = t0 := by omega
        rw [List.pairwise_cons] at hs
        obtain ⟨zs, hzs⟩ := ih m' hs.2 hrest (by omega)
        refine ⟨zs, ?_⟩
        simp only [insertSorted, if_neg h1, if_neg h2]
        simpa [List.dropLast] using congrArg ((t0, v0) :: ·) hzs

theorem head_min_of_pairwise {α : Type} (es : List (Nat × α)) (p q : Nat × α)
    (hs : es.Pairwise (fun p q => p.1 < q.1)) (hp : es.head? = some p) (hq : q ∈ es) :
    p.1 ≤ q.1 := by
  cases es with
  | nil => cases hq
  | cons r rest =>
    simp at hp
    subst hp
    rcases List.mem_cons.mp hq with h | h
    · simp [h]
    · rw [List.pairwise_cons] at hs
      exact le_of_lt (hs.1 q h)

theorem queryEntries_eq_none_iff {α : Type} (es : List (Nat × α)) (T : Nat)
    (hs : es.Pairwise (fun p q => p.1 < q.1)) :
    queryEntries es T = none ↔ es = [] ∨ ∃ p, es.head? = some p ∧ T < p.1 := by
  unfold queryEntries
  rw [Option.map_eq_none', List.getLast?_eq_none_iff, List.filter_eq_nil_iff]
  constructor
  · intro h
    cases hes : es with
    | nil => exact Or.inl rfl
    | cons p rest =>
      refine Or.inr ⟨p, by simp [hes], ?_⟩
      have := h p (by simp [hes])
      simpa using this
  · rintro (h | ⟨p, hp, hT⟩) q hq
    · rw [h] at hq
      cases hq
    · have := head_min_of_pairwise es p q hs hp hq
      simp
      omega

theorem filter_getLast_of_greatest {α : Type} (es : List (Nat × α)) (T : Nat) (tv : Nat × α)
    (hs : es.Pairwise (fun p q => p.1 < q.1)) (hmem : tv ∈ es) (hle : tv.1 ≤ T)
    (hmax : ∀ q ∈ es, q.1 ≤ T → q.1 ≤ tv.1) :
    (es.filter (fun p => p.1 ≤ T)).getLast? = some tv := by
  induction es with
  | nil => cases hmem
  | cons p rest ih =>
    rw [List.pairwise_cons] at hs
    rcases List.mem_cons.mp hmem with h | h
    · have htv1 : tv.1 = p.1 := by rw [h]
      have hrest : rest.filter (fun r => r.1 ≤ T) = [] := by
        rw [List.filter_eq_nil_iff]
        intro q hq
        have h1 := hs.1 q hq
        by_contra hcon
        simp at hcon
        have h2 := hmax q (List.mem_cons_of_mem p hq) hcon
        omega
      have hpT : p.1 ≤ T := by omega
      rw [List.filter_cons_of_pos (by simpa using hpT), hrest, ← h]
      simp
    · have hlt : p.1 < tv.1 := hs.1 tv h
      have hpT : p.1 ≤ T := by omega
      have ihl := ih hs.2 h (fun q hq hqT => hmax q (List.mem_cons_of_mem p hq) hqT)
      have : p :: rest.filter (fun p => p.1 ≤ T) = [p] ++ rest.filter (fun p => p.1 ≤ T) := rfl
      rw [List.filter_cons_of_pos (by simpa using hpT), this, List.getLast?_append, ihl]
      rfl

/-! ### Claim theorems -/

/-- C1 (counterexample): for entity `e` with rows at timestamps `[10, 1]`
and values `[1, 4]` in stream order, the claim says `query(e, t)` returns
`1` for every `t >= 1`; but at `t = 1` the query is absent (the ts=1 row
was dropped and the earliest retained timestamp is 10), not `1`. -/
theorem stale_timestamp_query_below_retained :
    query (buildTS [("e", 10, Val.vint 1), ("e", 1, Val.vint 4)]) "e" 1 = none ∧
    ¬ query (buildTS [("e", 10, Val.vint 1), ("e", 1, Val.vint 4)]) "e" 1
        = some (Val.vint 1) := by
  decide

/-- C1 (amended): rows are accepted iff their timestamp is at least the
entity's running maximum (a strictly earlier row is dropped, an accepted
row is inserted/overwritten at its key); for rows at timestamps `[10, 1]`
with values `[1, 4]`, `query(e, t)` returns `1` for every `t >= 10` and
absent for `t < 10` — never `4`; for rows at timestamp `3` with values
`[2, 9]` in that order, `query(e, 3) = 9`. -/
theorem out_of_order_rejection_amended :
    (∀ t : Nat,
      query (buildTS [("e", 10, Val.vint 1), ("e", 1, Val.vint 4)]) "e" t =
        if 10 ≤ t then some (Val.vint 1) else none) ∧
    query (buildTS [("e", 3, Val.vint 2), ("e", 3, Val.vint 9)]) "e" 3 = some (Val.vint 9) ∧
    (∀ (α : Type) (rows : List (String × Nat × α)) (e : String) (t : Nat) (v : α) (m : Nat),
      maxTS (entriesOf (buildTS rows) e) = some m → t < m →
      entriesOf (buildTS (rows ++ [(e, t, v)])) e = entriesOf (buildTS rows) e) ∧
    (∀ (α : Type) (rows : List (String × Nat × α)) (e : String) (t : Nat) (v : α) (m : Nat),
      maxTS (entriesOf (buildTS rows) e) = some m → m ≤ t →
      entriesOf (buildTS (rows ++ [(e, t, v)])) e =
        insertSorted (entriesOf (buildTS rows) e) t v) := by
  refine ⟨?_, by decide, ?_, ?_⟩
  · intro t
    by_cases ht : 10 ≤ t
    · simp [query, buildTS, updateEntity, entriesOf, lookupEntity, acceptTS, maxTS,
        insertSorted, queryEntries, List.filter, ht]
    · simp [query, buildTS, updateEntity, entriesOf, lookupEntity, acceptTS, maxTS,
        insertSorted, queryEntries, List.filter, ht]
  · intro α rows e t v m hm ht
    rw [buildTS_append_one, entriesOf_updateEntity_self]
    simp only [acceptTS, hm]
    rw [if_neg (by omega)]
  · intro α rows e t v m hm ht
    rw [buildTS_append_one, entriesOf_updateEntity_self]
    simp only [acceptTS, hm]
    rw [if_pos ht]

/-- C1 (witness): the drop rule applied at a concrete input — appending
the stale row `("e", 1, 4)` after `("e", 10, 1)` leaves the entity's
history unchanged. -/
theorem out_of_order_rejection_amended_witness :
    entriesOf (buildTS ([("e", 10, Val.vint 1)] ++ [("e", 1, Val.vint 4)])) "e" =
      entriesOf (buildTS [("e", 10, Val.vint 1)]) "e" :=
  out_of_order_rejection_amended.2.2.1 Val [("e", 10, Val.vint 1)] "e" 1 (Val.vint 4) 10
    (by decide) (by decide)

/-- C2 (counterexample): two label rows for the same entity at the same
timestamp produce a single output row (the later row wins), not one
output row per label event as the claim states. -/
theorem duplicate_label_rows_collapse :
    assemble [("a", 0, Val.vint 1), ("a", 0, Val.vint 2)] ([] : List (History Val)) =
      [([], Val.vint 2)] ∧
    ([("a", 0, Val.vint 1), ("a", 0, Val.vint 2)] : List (String × Nat × Val)).length = 2 := by
  decide

/-- C2 (amended): `assemble` emits one output row per label event
surviving the step-1 dedupe (same-entity rows at an equal timestamp keep
only the later row in stream order), in order, each row the feature
values in feature-spec order — each looked up as of the label's
timestamp, with a missing lookup yielding absent — followed by the label
value.  On the concrete scenario (label stream
`[(a,1,t10),(b,9,t3),(b,5,t5),(c,3,t7)]`, no-timestamp feature F1 with
final value `a -> 4`, timestamped feature F2 with single row
`(a,"x",t11)`) the row for label `(a,1,t10)` has features `[4, absent]`
and label `1`. -/
theorem training_set_assembly_amended :
    assemble [("a", 10, Val.vint 1), ("b", 3, Val.vint 9), ("b", 5, Val.vint 5),
        ("c", 7, Val.vint 3)]
      [buildNoTS [("a", Val.vint 1), ("b", Val.vint 2), ("c", Val.vint 3), ("a", Val.vint 4)],
       buildTS [("a", 11, Val.vstr "x")]] =
    [([some (Val.vint 4), none], Val.vint 1),
     ([some (Val.vint 2), none], Val.vint 9),
     ([some (Val.vint 2), none], Val.vint 5),
     ([some (Val.vint 3), none], Val.vint 3)] := by
  decide

/-- C3: `query` returns the value recorded at the greatest timestamp
`<= at` for the entity, and returns absent exactly when the entity has no
entries or its earliest retained timestamp exceeds `at`; in particular a
feature whose only entry is at `t11` queried at `t10` is absent. -/
theorem query_as_of_semantics :
    (∀ (α : Type) (rows : List (String × Nat × α)) (e : String) (T : Nat),
      (query (buildTS rows) e T = none ↔
        entriesOf (buildTS rows) e = [] ∨
          ∃ p, (entriesOf (buildTS rows) e).head? = some p ∧ T < p.1) ∧
      (∀ tv ∈ entriesOf (buildTS rows) e, tv.1 ≤ T →
        (∀ q ∈ entriesOf (buildTS rows) e, q.1 ≤ T → q.1 ≤ tv.1) →
        query (buildTS rows) e T = some tv.2)) ∧
    query (buildTS [("a", 11, Val.vstr "x")]) "a" 10 = none := by
  refine ⟨fun α rows e T => ⟨?_, ?_⟩, by decide⟩
  · exact queryEntries_eq_none_iff _ T (buildTS_entries_pairwise rows e)
  · intro tv hmem hle hmax
    unfold query queryEntries
    rw [filter_getLast_of_greatest _ T tv (buildTS_entries_pairwise rows e) hmem hle hmax]
    rfl

/-- C3 (witness): the greatest-timestamp rule applied at a concrete
input — two entries at timestamps 3 and 7, queried at 5, return the value
at timestamp 3. -/
theorem query_as_of_semantics_witness :
    query (buildTS [("a", 3, Val.vint 30), ("a", 7, Val.vint 70)]) "a" 5 =
      some (Val.vint 30) :=
  (query_as_of_semantics.1 Val [("a", 3, Val.vint 30), ("a", 7, Val.vint 70)] "a" 5).2
    (3, Val.vint 30) (by decide) (by decide) (by decide)

/-- C6: with `has_timestamp` false every row is accepted unconditionally,
so the last row per entity in stream order wins and `query` returns that
value at every query time; in particular the stream
`[(a,1),(b,2),(c,3),(a,4)]` yields `query(a,t)=4`, `query(b,t)=2`,
`query(c,t)=3` for every `t`. -/
theorem no_timestamp_collapse :
    (∀ (α : Type) (rows : List (String × α)) (e : String) (t : Nat),
      query (buildNoTS rows) e t =
        ((rows.filter (fun r => r.1 = e)).getLast?).map Prod.snd) ∧
    (∀ t : Nat,
      query (buildNoTS [("a", Val.vint 1), ("b", Val.vint 2), ("c", Val.vint 3),
          ("a", Val.vint 4)]) "a" t = some (Val.vint 4) ∧
      query (buildNoTS [("a", Val.vint 1), ("b", Val.vint 2), ("c", Val.vint 3),
          ("a", Val.vint 4)]) "b" t = some (Val.vint 2) ∧
      query (buildNoTS [("a", Val.vint 1), ("b", Val.vint 2), ("c", Val.vint 3),
          ("a", Val.vint 4)]) "c" t = some (Val.vint 3)) := by
  refine ⟨fun α rows e t => query_buildNoTS rows e t, fun t => ⟨?_, ?_, ?_⟩⟩
  all_goals rw [query_buildNoTS]
  all_goals decide

/-- C7: every history built by the Materializer has, per entity, entries
strictly ordered by timestamp (hence no two entries share a timestamp),
and processing one more row never modifies an entity's history below its
final (running-maximum) entry. -/
theorem history_invariant :
    (∀ (α : Type) (rows : List (String × Nat × α)) (e : String),
      (entriesOf (buildTS rows) e).Pairwise (fun p q => p.1 < q.1)) ∧
    (∀ (α : Type) (rows : List (String × Nat × α)) (r : String × Nat × α) (e : String),
      ∃ zs, (entriesOf (buildTS rows) e).dropLast ++ zs =
        entriesOf (buildTS (rows ++ [r])) e) := by
  refine ⟨fun α rows e => buildTS_entries_pairwise rows e, fun α rows r e => ?_⟩
  obtain ⟨re, rt, rv⟩ := r
  rw [buildTS_append_one]
  by_cases he : e = re
  · subst he
    rw [entriesOf_updateEntity_self]
    rcases hmax : maxTS (entriesOf (buildTS rows) e) with _ | m
    · rw [maxTS_eq_none_iff] at hmax
      rw [hmax]
      exact ⟨insertSorted [] rt rv, rfl⟩
    · unfold acceptTS
      simp only [hmax]
      by_cases hle : m ≤ rt
      · rw [if_pos hle]
        exact insertSorted_ge_max _ rt rv m (buildTS_entries_pairwise rows e) hmax hle
      · rw [if_neg hle]
        exact exists_dropLast_append _
  · rw [entriesOf_updateEntity_ne _ _ _ _ he]
    exact exists_dropLast_append _

theorem validateColumns_ok_iff (schema : List String) (ec vc : String) (tc : Option String) :
    validateColumns schema ec vc tc = .ok () ↔
      (ec ∈ schema ∧ vc ∈ schema ∧ ∀ c ∈ tc, c ∈ schema) := by
  unfold validateColumns
  by_cases hec : ec ∈ schema
  · by_cases hvc : vc ∈ schema
    · cases tc with
      | none => simp [hec, hvc]
      | some t =>
        by_cases ht : t ∈ schema
        · simp [hec, hvc, ht]
        · simp [hec, hvc, ht]
    · simp [hec, hvc]
  · simp [hec]

theorem validateColumns_error_name (schema : List String) (ec vc : String)
    (tc : Option String) (c : String)
    (h : validateColumns schema ec vc tc = .error (.columnNotFound c)) :
    ¬ c ∈ schema ∧ (c = ec ∨ c = vc ∨ tc = some c) := by
  unfold validateColumns at h
  by_cases hec : ec ∈ schema
  · rw [if_neg (not_not_intro hec)] at h
    by_cases hvc : vc ∈ schema
    · rw [if_neg (not_not_intro hvc)] at h
      cases tc with
      | none => cases h
      | some t =>
        have h' : (if t ∉ schema then Except.error (MatError.columnNotFound t)
            else Except.ok ()) = Except.error (MatError.columnNotFound c) := h
        by_cases ht : t ∈ schema
        · rw [if_neg (not_not_intro ht)] at h'
          cases h'
        · rw [if_pos ht] at h'
          injection h' with h1
          injection h1 with h2
          refine ⟨?_, Or.inr (Or.inr ?_)⟩
          · rw [← h2]
            exact ht
          · rw [h2]
    · rw [if_pos hvc] at h
      injection h with h1
      injection h1 with h2
      refine ⟨?_, Or.inr (Or.inl h2.symm)⟩
      rw [← h2]
      exact hvc
  · rw [if_pos hec] at h
    injection h with h1
    injection h1 with h2
    refine ⟨?_, Or.inl h2.symm⟩
    rw [← h2]
    exact hec

/-- C9: Materializer construction fails with a `ColumnNotFoundError`
naming a missing required column, and never proceeds when a required
column (entity, value, or requested timestamp) is absent from the
schema. -/
theorem missing_column_fails :
    ∀ (α : Type) (schema : List String) (ec vc : String) (tc : Option String)
      (rows : List (String × Nat × α)),
      ((∃ h, materialize schema ec vc tc rows = .ok h) ↔
        (ec ∈ schema ∧ vc ∈ schema ∧ ∀ c ∈ tc, c ∈ schema)) ∧
      (∀ c, materialize schema ec vc tc rows = .error (.columnNotFound c) →
        ¬ c ∈ schema ∧ (c = ec ∨ c = vc ∨ tc = some c)) := by
  intro α schema ec vc tc rows
  rcases hval : validateColumns schema ec vc tc with e | u
  · obtain ⟨c0⟩ := e
    have hname := validateColumns_error_name schema ec vc tc c0 hval
    have hmat : materialize schema ec vc tc rows = .error (.columnNotFound c0) := by
      unfold materialize
      rw [hval]
    constructor
    · constructor
      · rintro ⟨h, hh⟩
        rw [hmat] at hh
        cases hh
      · intro hok
        have hok' := (validateColumns_ok_iff schema ec vc tc).mpr hok
        rw [hval] at hok'
        cases hok'
    · intro c hc
      rw [hmat] at hc
      injection hc with h1
      injection h1 with h2
      rw [← h2]
      exact hname
  · obtain ⟨⟩ := u
    have hmat : materialize schema ec vc tc rows = .ok (buildTS rows) := by
      unfold materialize
      rw [hval]
    constructor
    · constructor
      · intro _
        exact (validateColumns_ok_iff schema ec vc tc).mp hval
      · intro _
        exact ⟨buildTS rows, hmat⟩
    · intro c hc
      rw [hmat] at hc
      cases hc

/-- C10 (counterexample): the empty string is outside the claim's
eight-element scalar set, yet construction succeeds — `ScalarType.NIL`
(the empty string) is among the supported `ScalarType` values in
`enums.py`, so the validation accepts it. -/
theorem empty_value_type_accepted :
    featureInitOk "" = true ∧ labelInitOk "" = true ∧
    ¬ "" ∈ ["int", "int32", "int64", "float32", "float64", "string", "bool", "datetime"] := by
  decide

/-- C10 (amended): Feature/Label construction succeeds exactly when the
`value_type` string is one of the `ScalarType` values — the eight scalar
names of the claim plus the empty string (`ScalarType.NIL`); in
particular every listed scalar name succeeds and `"str"`/`"none"` are
rejected. -/
theorem value_type_validation_amended :
    (∀ vt : String, featureInitOk vt = true ↔ vt ∈ ScalarType.get_values) ∧
    (∀ vt : String, labelInitOk vt = true ↔ vt ∈ ScalarType.get_values) ∧
    (featureInitOk "int" = true ∧ featureInitOk "int32" = true ∧ featureInitOk "int64" = true ∧
      featureInitOk "float32" = true ∧ featureInitOk "float64" = true ∧
      featureInitOk "string" = true ∧ featureInitOk "bool" = true ∧
      featureInitOk "datetime" = true ∧
      featureInitOk "str" = false ∧ featureInitOk "none" = false) ∧
    (labelInitOk "str" = false ∧ labelInitOk "none" = false) := by
  refine ⟨fun vt => ?_, fun vt => ?_, by decide, by decide⟩ <;>
    simp [featureInitOk, labelInitOk, ScalarType.has_value]

/-- C9 (witness): the schema of the test case `feature_invalid_entity`
(`["entity","values","timestamp"]` with entity column `"wrong_entity"`)
fails with a `ColumnNotFoundError` naming the missing column. -/
theorem missing_column_fails_witness :
    ¬ "wrong_entity" ∈ ["entity", "values", "timestamp"] ∧
    ("wrong_entity" = "wrong_entity" ∨ "wrong_entity" = "values" ∨
      some "timestamp" = some "wrong_entity") :=
  (missing_column_fails Val ["entity", "values", "timestamp"] "wrong_entity" "values"
    (some "timestamp") []).2 "wrong_entity" rfl

/-! ### Helper lemmas on the resource graph -/

theorem filter_or_perm {α : Type} (l : List α) (p q : α → Bool)
    (hdisj : ∀ x, p x = true → q x = false) :
    l.filter p ++ l.filter q ~ l.filter (fun x => p x || q x) := by
  induction l with
  | nil => simp
  | cons x l' ih =>
    by_cases hp : p x = true
    · have hq : q x = false := hdisj x hp
      simp [List.filter_cons, hp, hq]
      exact ih
    · have hp' : p x = false := by simpa using hp
      by_cases hq : q x = true
      · simp [List.filter_cons, hp', hq]
        exact List.perm_middle.trans (ih.cons x)
      · have hq' : q x = false := by simpa using hq
        simp [List.filter_cons, hp', hq']
        exact ih

theorem nonScheduleKinds_nodup : nonScheduleKinds.Nodup := by decide

theorem mem_nonScheduleKinds (k : ResourceKind) : k ∈ nonScheduleKinds ↔ k ≠ .schedule := by
  cases k <;> decide

theorem flatMap_filter_perm (rs : List Resource) (ks : List ResourceKind) (hnd : ks.Nodup) :
    (ks.flatMap (fun k => rs.filter (fun r => r.kind = k))) ~
      rs.filter (fun r => decide (r.kind ∈ ks)) := by
  induction ks with
  | nil => simp
  | cons k ks' ih =>
    rw [List.flatMap_cons]
    obtain ⟨hk, hnd'⟩ := List.nodup_cons.mp hnd
    refine ((ih hnd').append_left _).trans ?_
    have hdisj : ∀ r : Resource, decide (r.kind = k) = true → decide (r.kind ∈ ks') = false := by
      intro r hr
      simp at hr ⊢
      rw [hr]
      exact hk
    refine (filter_or_perm rs _ _ hdisj).trans ?_
    have heq : rs.filter (fun x => decide (x.kind = k) || decide (x.kind ∈ ks')) =
        rs.filter (fun x => decide (x.kind ∈ k :: ks')) :=
      List.filter_congr (by intro x _; simp [List.mem_cons])
    rw [heq]

theorem sortedList_perm (s : ResourceState) : sortedList s ~ s.resources := by
  unfold sortedList
  have h1 := flatMap_filter_perm s.resources nonScheduleKinds nonScheduleKinds_nodup
  have h2 : (s.resources.filter (fun r => r.kind = .schedule)).insertionSort nameLe ~
      s.resources.filter (fun r => r.kind = .schedule) :=
    List.perm_insertionSort nameLe _
  refine (h1.append h2).trans ?_
  have heq : s.resources.filter (fun r => decide (r.kind ∈ nonScheduleKinds)) =
      s.resources.filter (fun r => !(decide (r.kind = ResourceKind.schedule))) :=
    List.filter_congr (by
      intro x _
      cases hk : x.kind <;> simp [nonScheduleKinds])
  rw [heq]
  exact List.perm_append_comm.trans
    (List.filter_append_perm (fun r => decide (r.kind = ResourceKind.schedule)) s.resources)

theorem sortedList_length (s : ResourceState) :
    (sortedList s).length = s.resources.length :=
  (sortedList_perm s).length_eq

theorem flatMap_filter_kind (rs : List Resource) (ks : List ResourceKind) (k : ResourceKind)
    (hnd : ks.Nodup) (hk : k ∈ ks) :
    (ks.flatMap (fun k' => rs.filter (fun r => r.kind = k'))).filter (fun r => r.kind = k) =
      rs.filter (fun r => r.kind = k) := by
  induction ks with
  | nil => cases hk
  | cons k0 ks' ih =>
    obtain ⟨hk0, hnd'⟩ := List.nodup_cons.mp hnd
    rw [List.flatMap_cons, List.filter_append]
    by_cases hkk : k0 = k
    · subst hkk
      have htail : (ks'.flatMap (fun k' => rs.filter (fun r => r.kind = k'))).filter
          (fun r => r.kind = k0) = [] := by
        rw [List.filter_eq_nil_iff]
        intro r hr
        obtain ⟨k', hk', hrk⟩ := List.mem_flatMap.mp hr
        have hkind : r.kind = k' := by simpa using (List.mem_filter.mp hrk).2
        simp [hkind]
        intro heq
        exact hk0 (heq ▸ hk')
      have hhead : (rs.filter (fun r => r.kind = k0)).filter (fun r => r.kind = k0) =
          rs.filter (fun r => r.kind = k0) := by
        rw [List.filter_filter]
        exact List.filter_congr (fun x _ => by simp)
      rw [htail, hhead, List.append_nil]
    · have hk' : k ∈ ks' := by
        rcases List.mem_cons.mp hk with h | h
        · exact absurd h.symm hkk
        · exact h
      have hhead : (rs.filter (fun r => r.kind = k0)).filter (fun r => r.kind = k) = [] := by
        rw [List.filter_filter, List.filter_eq_nil_iff]
        intro r _
        simp
        intro h1 h2
        exact hkk (h2 ▸ h1 ▸ rfl)
      rw [hhead, List.nil_append]
      exact ih hnd' hk'

theorem sortedList_filter_kind (s : ResourceState) (k : ResourceKind) (hk : k ≠ .schedule) :
    (sortedList s).filter (fun r => r.kind = k) = s.resources.filter (fun r => r.kind = k) := by
  unfold sortedList
  rw [List.filter_append]
  have hB : ((s.resources.filter (fun r => r.kind = .schedule)).insertionSort nameLe).filter
      (fun r => r.kind = k) = [] := by
    rw [List.filter_eq_nil_iff]
    intro r hr
    have hmem : r ∈ s.resources.filter (fun x => x.kind = ResourceKind.schedule) :=
      (List.mem_insertionSort nameLe).mp hr
    have hks : r.kind = ResourceKind.schedule := by simpa using (List.mem_filter.mp hmem).2
    simp [hks]
    exact fun h => hk h.symm
  rw [hB, List.append_nil]
  exact flatMap_filter_kind s.resources nonScheduleKinds k nonScheduleKinds_nodup
    ((mem_nonScheduleKinds k).mpr hk)

theorem mem_flatMap_nonSchedule (rs : List Resource) (r : Resource)
    (hr : r ∈ nonScheduleKinds.flatMap (fun k => rs.filter (fun x => x.kind = k))) :
    r.kind ≠ .schedule := by
  obtain ⟨k, hk, hrk⟩ := List.mem_flatMap.mp hr
  have hkind : r.kind = k := by simpa using (List.mem_filter.mp hrk).2
  rw [hkind]
  exact (mem_nonScheduleKinds k).mp hk

theorem pairwise_flatMap_rank (rs : List Resource) (ks : List ResourceKind)
    (hs : ks.Pairwise (fun k1 k2 => kindRank k1 ≤ kindRank k2)) :
    (ks.flatMap (fun k => rs.filter (fun r => r.kind = k))).Pairwise
      (fun r1 r2 => kindRank r1.kind ≤ kindRank r2.kind) := by
  induction ks with
  | nil => simp
  | cons k ks' ih =>
    rw [List.flatMap_cons, List.pairwise_append]
    rw [List.pairwise_cons] at hs
    refine ⟨?_, ih hs.2, ?_⟩
    · apply List.pairwise_of_forall_mem_list
      intro a ha b hb
      have ha' : a.kind = k := by simpa using (List.mem_filter.mp ha).2
      have hb' : b.kind = k := by simpa using (List.mem_filter.mp hb).2
      rw [ha', hb']
    · intro a ha b hb
      have ha' : a.kind = k := by simpa using (List.mem_filter.mp ha).2
      obtain ⟨k', hk', hbk⟩ := List.mem_flatMap.mp hb
      have hb' : b.kind = k' := by simpa using (List.mem_filter.mp hbk).2
      rw [ha', hb']
      exact hs.1 k' hk'

theorem sortedList_pairwise (s : ResourceState) : (sortedList s).Pairwise sortedOrd := by
  unfold sortedList
  rw [List.pairwise_append]
  refine ⟨?_, ?_, ?_⟩
  · have h1 := pairwise_flatMap_rank s.resources nonScheduleKinds (by decide)
    have h2 : (nonScheduleKinds.flatMap
        (fun k => s.resources.filter (fun r => r.kind = k))).Pairwise
        (fun r1 r2 => r1.kind ≠ ResourceKind.schedule ∧ r2.kind ≠ ResourceKind.schedule) :=
      List.pairwise_of_forall_mem_list
        (fun a ha b hb =>
          ⟨mem_flatMap_nonSchedule _ _ ha, mem_flatMap_nonSchedule _ _ hb⟩)
    exact (h2.and h1).imp (fun h => Or.inr (Or.inl ⟨h.1.1, h.1.2, h.2⟩))
  · have h1 : ((s.resources.filter (fun r => r.kind = .schedule)).insertionSort
        nameLe).Pairwise nameLe :=
      List.sorted_insertionSort nameLe _
    have h2 : ((s.resources.filter (fun r => r.kind = .schedule)).insertionSort
        nameLe).Pairwise
        (fun r1 r2 => r1.kind = ResourceKind.schedule ∧ r2.kind = ResourceKind.schedule) := by
      apply List.pairwise_of_forall_mem_list
      intro a ha b hb
      have ha' : a ∈ s.resources.filter (fun x => x.kind = ResourceKind.schedule) :=
        (List.mem_insertionSort nameLe).mp ha
      have hb' : b ∈ s.resources.filter (fun x => x.kind = ResourceKind.schedule) :=
        (List.mem_insertionSort nameLe).mp hb
      exact ⟨by simpa using (List.mem_filter.mp ha').2, by simpa using (List.mem_filter.mp hb').2⟩
    exact (h2.and h1).imp (fun h => Or.inr (Or.inr ⟨h.1.1, h.1.2, h.2⟩))
  · intro a ha b hb
    have hb' : b ∈ s.resources.filter (fun x => x.kind = ResourceKind.schedule) :=
      (List.mem_insertionSort nameLe).mp hb
    exact Or.inl ⟨mem_flatMap_nonSchedule _ _ ha,
      by simpa using (List.mem_filter.mp hb').2⟩

theorem lookupRes_eq_none_iff (s : ResourceState) (k : ResourceKind × String × String) :
    lookupRes s k = none ↔ ¬ k ∈ s.resources.map rkey := by
  unfold lookupRes
  rw [List.find?_eq_none]
  constructor
  · intro h hmem
    obtain ⟨x, hx, hrx⟩ := List.mem_map.mp hmem
    exact h x hx (by simpa using hrx)
  · intro h x hx
    simp
    intro hrx
    exact h (List.mem_map.mpr ⟨x, hx, hrx⟩)

theorem lookupRes_some_key (s : ResourceState) (k : ResourceKind × String × String)
    (q : Resource) (h : lookupRes s k = some q) : rkey q = k ∧ q ∈ s.resources :=
  ⟨by simpa using List.find?_some h, List.mem_of_find?_eq_some h⟩

theorem rkey_merge (q r : Resource) :
    rkey (if rkey q = rkey r then { q with refs := mergeRefs q.refs r.refs } else q) = rkey q := by
  by_cases hq : rkey q = rkey r
  · rw [if_pos hq]
    rfl
  · rw [if_neg hq]

theorem mergeAt_map_rkey (rs : List Resource) (r : Resource) :
    (mergeAt rs r).map rkey = rs.map rkey := by
  unfold mergeAt
  rw [List.map_map]
  exact List.map_congr_left (fun q _ => rkey_merge q r)

theorem mergeAt_filter_rkey (rs : List Resource) (r : Resource)
    (k : ResourceKind × String × String) :
    ((mergeAt rs r).filter (fun x => rkey x = k)).length =
      (rs.filter (fun x => rkey x = k)).length := by
  unfold mergeAt
  rw [List.filter_map]
  rw [List.length_map]
  congr 1
  exact List.filter_congr (fun q _ => by
    show decide (rkey (if rkey q = rkey r then _ else q) = k) = decide (rkey q = k)
    rw [rkey_merge q r])

theorem add_ok_defn (s0 : ResourceState) (r : Resource) (s : ResourceState)
    (h : add s0 r = .ok s) :
    ∃ q, lookupRes s (rkey r) = some q ∧ q.defn = r.defn := by
  unfold add at h
  rcases hlook : lookupRes s0 (rkey r) with _ | q0
  · simp only [hlook] at h
    injection h with h'
    subst h'
    refine ⟨r, ?_, rfl⟩
    unfold lookupRes at hlook ⊢
    show List.find? _ (s0.resources ++ [r]) = some r
    rw [List.find?_append, hlook]
    simp [List.find?]
  · simp only [hlook] at h
    by_cases hdefn : q0.defn = r.defn
    · rw [if_pos hdefn] at h
      injection h with h'
      subst h'
      have hkey : rkey q0 = rkey r := (lookupRes_some_key s0 (rkey r) q0 hlook).1
      refine ⟨{ q0 with refs := mergeRefs q0.refs r.refs }, ?_, hdefn⟩
      unfold lookupRes mergeAt
      show List.find? _ (s0.resources.map _) = _
      rw [List.find?_map]
      unfold lookupRes at hlook
      have hpf : ((fun x : Resource => decide (rkey x = rkey r)) ∘
          (fun q => if rkey q = rkey r then { q with refs := mergeRefs q.refs r.refs }
            else q)) = (fun x : Resource => decide (rkey x = rkey r)) := by
        funext x
        show decide (rkey (if rkey x = rkey r then _ else x) = rkey r) = _
        rw [rkey_merge x r]
      rw [hpf, hlook]
      simp [hkey]
    · rw [if_neg hdefn] at h
      cases h

theorem addAllFrom_keys (rs : List Resource) :
    ∀ (s0 s : ResourceState), addAllFrom s0 rs = .ok s →
      s.resources.map rkey =
        rs.foldl (fun acc r => if rkey r ∈ acc then acc else acc ++ [rkey r])
          (s0.resources.map rkey) := by
  induction rs with
  | nil =>
    intro s0 s h
    unfold addAllFrom at h
    injection h with h'
    subst h'
    rfl
  | cons r rest ih =>
    intro s0 s h
    unfold addAllFrom at h
    rcases hadd : add s0 r with e | s1
    · rw [hadd] at h
      cases h
    · rw [hadd] at h
      have hkeys1 : s1.resources.map rkey =
          (if rkey r ∈ s0.resources.map rkey then s0.resources.map rkey
            else s0.resources.map rkey ++ [rkey r]) := by
        unfold add at hadd
        rcases hlook : lookupRes s0 (rkey r) with _ | q
        · simp only [hlook] at hadd
          injection hadd with h'
          subst h'
          rw [if_neg ((lookupRes_eq_none_iff s0 (rkey r)).mp hlook)]
          simp
        · simp only [hlook] at hadd
          by_cases hdefn : q.defn = r.defn
          · rw [if_pos hdefn] at hadd
            injection hadd with h'
            subst h'
            obtain ⟨hk, hq⟩ := lookupRes_some_key s0 (rkey r) q hlook
            rw [if_pos (List.mem_map.mpr ⟨q, hq, hk⟩)]
            exact mergeAt_map_rkey s0.resources r
          · rw [if_neg hdefn] at hadd
            cases hadd
      rw [List.foldl_cons, ih s1 s h, hkeys1]

theorem addAll_keys (rs : List Resource) (s : ResourceState) (h : addAll rs = .ok s) :
    s.resources.map rkey = firstKeys (rs.map rkey) := by
  unfold firstKeys
  rw [List.foldl_map]
  exact addAllFrom_keys rs ⟨[]⟩ s h

/-- C4: after any sequence of successful `add` calls, `sorted_list()` is
a permutation of the state's resources in which every non-Schedule
resource precedes every Schedule resource, non-Schedule resources are
ordered by the fixed kind rank with ties within a rank kept in
first-insertion order (filtering the output by any non-Schedule kind
reproduces the state's insertion order for that kind), Schedule
resources are ordered by name, and the state lists one resource per
distinct identity key in first-insertion order. -/
theorem sorted_list_order :
    ∀ (rs : List Resource) (s : ResourceState), addAll rs = .ok s →
      sortedList s ~ s.resources ∧
      (∀ k : ResourceKind, k ≠ .schedule →
        (sortedList s).filter (fun r => r.kind = k) =
          s.resources.filter (fun r => r.kind = k)) ∧
      (sortedList s).Pairwise sortedOrd ∧
      s.resources.map rkey = firstKeys (rs.map rkey) :=
  fun rs s h =>
    ⟨sortedList_perm s, fun k hk => sortedList_filter_kind s k hk,
      sortedList_pairwise s, addAll_keys rs s h⟩

/-- C4 (witness): the order contract applied to a concrete two-resource
state reached by two successful adds. -/
theorem sorted_list_order_witness :
    sortedList ⟨[⟨.feature, "f", "v", "d", []⟩, ⟨.user, "u", "", "d", []⟩]⟩ ~
      [⟨.feature, "f", "v", "d", []⟩, ⟨.user, "u", "", "d", []⟩] :=
  (sorted_list_order [⟨.feature, "f", "v", "d", []⟩, ⟨.user, "u", "", "d", []⟩]
    ⟨[⟨.feature, "f", "v", "d", []⟩, ⟨.user, "u", "", "d", []⟩]⟩ rfl).1

/-- C5: adding two resources with an equal `(kind, name, variant)` key
but differing immutable defining fields makes the second `add` return
`ResourceRedefinedError` naming the conflicting kind/name/variant. -/
theorem redefinition_error :
    ∀ (s0 : ResourceState) (r1 r2 : Resource) (s : ResourceState),
      rkey r1 = rkey r2 → r1.defn ≠ r2.defn → add s0 r1 = .ok s →
      add s r2 = .error (.redefined r2.kind r2.name r2.variant) := by
  intro s0 r1 r2 s hkey hdefn h
  obtain ⟨q, hq, hqdefn⟩ := add_ok_defn s0 r1 s h
  unfold add
  rw [← hkey]
  simp only [hq]
  rw [if_neg (by rw [hqdefn]; exact hdefn)]

/-- C5 (witness): redefining the provider `"name"` with a different
config errors, mirroring `test_redefine_provider`. -/
theorem redefinition_error_witness :
    add ⟨[⟨.provider, "name", "", "redis", []⟩]⟩ ⟨.provider, "name", "", "snowflake", []⟩ =
      .error (.redefined .provider "name" "") :=
  redefinition_error ⟨[]⟩ ⟨.provider, "name", "", "redis", []⟩
    ⟨.provider, "name", "", "snowflake", []⟩ ⟨[⟨.provider, "name", "", "redis", []⟩]⟩
    rfl (by decide) rfl

/-- C8: re-adding a resource whose identity key is already present with
equal immutable defining fields succeeds, leaves the state's key sequence
unchanged, does not change the length of `sorted_list()`, and does not change
the number of `sorted_list()` entries carrying that key (no
duplication). -/
theorem readd_idempotent :
    ∀ (s : ResourceState) (r q : Resource),
      lookupRes s (rkey r) = some q → q.defn = r.defn →
      ∃ s', add s r = .ok s' ∧
        s'.resources.map rkey = s.resources.map rkey ∧
        (sortedList s').length = (sortedList s).length ∧
        ((sortedList s').filter (fun x => rkey x = rkey r)).length =
          ((sortedList s).filter (fun x => rkey x = rkey r)).length := by
  intro s r q hq hdefn
  refine ⟨⟨mergeAt s.resources r⟩, ?_, mergeAt_map_rkey s.resources r, ?_, ?_⟩
  · unfold add
    simp only [hq]
    rw [if_pos hdefn]
  · rw [sortedList_length, sortedList_length]
    show (mergeAt s.resources r).length = s.resources.length
    unfold mergeAt
    exact List.length_map _ _
  · rw [((sortedList_perm _).filter _).length_eq, ((sortedList_perm _).filter _).length_eq]
    exact mergeAt_filter_rkey s.resources r (rkey r)

/-- C8 (witness): re-adding the provider `"name"` with identical defining
fields to a one-element state succeeds and changes nothing. -/
theorem readd_idempotent_witness :
    ∃ s', add ⟨[⟨.provider, "name", "", "redis", []⟩]⟩ ⟨.provider, "name", "", "redis", []⟩ =
        .ok s' ∧
      s'.resources.map rkey =
        (⟨[⟨.provider, "name", "", "redis", []⟩]⟩ : ResourceState).resources.map rkey ∧
      (sortedList s').length =
        (sortedList ⟨[⟨.provider, "name", "", "redis", []⟩]⟩).length ∧
      ((sortedList s').filter
          (fun x => rkey x = rkey ⟨.provider, "name", "", "redis", []⟩)).length =
        ((sortedList ⟨[⟨.provider, "name", "", "redis", []⟩]⟩).filter
          (fun x => rkey x = rkey ⟨.provider, "name", "", "redis", []⟩)).length :=
  readd_idempotent ⟨[⟨.provider, "name", "", "redis", []⟩]⟩
    ⟨.provider, "name", "", "redis", []⟩ ⟨.provider, "name", "", "redis", []⟩ rfl rfl

end FF
